import Mathlib

/-!
Shallow embedding of the crusty storage core and query operators:
the slotted page (`heapstore/src/page.rs`), the heap file and storage
manager (`heapstore/src/heapfile.rs`, `heapstore/src/storage_manager.rs`)
and the aggregate and hash-join operators
(`queryexe/src/opiterator/aggregate.rs`, `queryexe/src/opiterator/join.rs`).

Machine integers are modelled as `Nat`/`Int`.  Where the source can panic
(an `unwrap` of `None`, a slice whose start exceeds its end, an integer
underflow in a debug build) the embedding either returns `Ret.crash` or, in
the few places marked by a comment, folds the failure into the same branch
as an ordinary failure return, when no claim distinguishes the two.
-/

namespace Crusty

/-- `common::PAGE_SIZE`: the fixed page size in bytes. -/
def PAGE_SIZE : Nat := 4096

/-- Result of running a Rust computation: a value, or a panic
(`unwrap` of `None`/`Err`, out-of-bounds slice, debug-build overflow). -/
inductive Ret (α : Type) where
  | ok (a : α)
  | crash
deriving DecidableEq, Repr

/-- Association-list model of `std::collections::HashMap`: entries are kept
in first-insertion order with unique keys.  `lookup`, `insert`, `len` and
order-insensitive folds behave exactly as the hash map; the hash map's
unspecified iteration order is modelled, at its only order-observable use
(the aggregate result iterator), by an explicit order parameter. -/
def alistLookup {α β : Type} [DecidableEq α] : List (α × β) → α → Option β
  | [], _ => none
  | (k', v) :: rest, k => if k' = k then some v else alistLookup rest k

/-- `HashMap::insert`: replace the value of an existing key in place,
otherwise append the new entry. -/
def alistInsert {α β : Type} [DecidableEq α] : List (α × β) → α → β → List (α × β)
  | [], k, v => [(k, v)]
  | (k', v') :: rest, k, v =>
      if k' = k then (k, v) :: rest else (k', v') :: alistInsert rest k v

/-- Byte `i` of a buffer.  Out-of-range reads return 0; every read the
source performs is in range (the source would panic otherwise). -/
def byteAt (data : List Nat) (i : Nat) : Nat := data.getD i 0

/-- `u16::from_le_bytes(data[i..i+2])`. -/
def readU16 (data : List Nat) (i : Nat) : Nat := byteAt data i + 256 * byteAt data (i + 1)

/-- `(x as u16).to_le_bytes()` as a two-byte list. -/
def u16le (x : Nat) : List Nat := [x % 256, x / 256 % 256]

/-- `data[i..i+vs.len()].clone_from_slice(vs)`: overwrite a slice of a
buffer.  All writes the source performs are in range. -/
def writeBytes (data : List Nat) (i : Nat) (vs : List Nat) : List Nat :=
  data.take i ++ vs ++ data.drop (i + vs.length)

/-- The page header (`page.rs`, `struct Header`).  `slot_map` maps a slot id
to `(e_idx, len)`: the index of the payload's last byte and its length. -/
structure Header where
  p_id : Nat
  open_slot : Option Nat
  slot_map : List (Nat × Nat × Nat)
  s_space : Nat
deriving DecidableEq, Repr

/-- `page.rs`, `struct Page`: a header plus `PAGE_SIZE` bytes of data. -/
structure Page where
  header : Header
  data : List Nat
deriving DecidableEq, Repr

/-- The body of the loop in `Page::find_next_slot` (`page.rs` lines
69-79): update the minimum tombstoned id when the entry is a smaller
tombstone, record that a tombstone was seen, and update the maximum
id. -/
def fnsStep (acc : Nat × Nat × Bool) (e : Nat × Nat × Nat) : Nat × Nat × Bool :=
  let mn := if e.2.2 = 0 ∧ e.1 < acc.1 then e.1 else acc.1
  let del := if e.2.2 = 0 then true else acc.2.2
  let mx := if e.1 > acc.2.1 then e.1 else acc.2.1
  (mn, mx, del)

/-- `Page::find_next_slot` (`page.rs` lines 60-90): one pass over the slot
map computing the minimum tombstoned id, the maximum id, and whether any
tombstone exists; it returns the minimum tombstoned id if one exists, else
`max + 1` when that is below `SlotId::max_value() = 65535`, else `None`.
The source reads only `slot_map`, so the embedding takes the map itself. -/
def findNextSlot (sm : List (Nat × Nat × Nat)) : Option Nat :=
  let r := sm.foldl fnsStep (65535, 0, false)
  if r.2.2 then some r.1
  else if r.2.1 + 1 < 65535 then some (r.2.1 + 1)
  else none

/-- Length of the `serde_cbor` encoding of an `Option<u16>`: `None` is the
one-byte CBOR null; `Some(x)` is encoded as the bare unsigned integer `x`
(one byte below 24, two below 256, three otherwise). -/
def cborLenOptU16 : Option Nat → Nat
  | none => 1
  | some x => if x < 24 then 1 else if x < 256 then 2 else 3

/-- `Page::get_header_size` (`page.rs` lines 408-417): 6 bytes per slot-map
entry, plus the 2 bytes of `p_id`, plus the `serde_cbor` length of
`open_slot`, plus the 2 bytes of `s_space`. -/
def Page.get_header_size (p : Page) : Nat :=
  6 * p.header.slot_map.length + 2 + cborLenOptU16 p.header.open_slot + 2

/-- `Page::get_free_space` (`page.rs` lines 423-425):
`PAGE_SIZE - header size - s_space`.  The `usize` subtraction is modelled
as truncated `Nat` subtraction; on states where it would underflow (a
debug-build panic) the model returns 0, and every claim treats both as
the absence of free space. -/
def Page.get_free_space (p : Page) : Nat :=
  PAGE_SIZE - p.get_header_size - p.header.s_space

/-- `Page::append_slot` (`page.rs` lines 100-143).  Writes the payload at
`[j - len, j)` with `j = PAGE_SIZE - s_space`, records `(e_idx, len)`,
recomputes `open_slot`, and adds `len` to `s_space`.  The guard
`i - 6 < get_header_size()` is compared over `Int`: when `i < 6` the
`usize` subtraction underflows, a debug-build panic, which lands in the
same `none` branch (no claim separates the two). -/
def Page.append_slot (p : Page) (slot_id : Nat) (bytes : List Nat) : Option (Page × Nat) :=
  let j := PAGE_SIZE - p.header.s_space
  let e_idx := PAGE_SIZE - p.header.s_space - 1
  let len := bytes.length
  let i := j - len
  if (i : Int) - 6 < (p.get_header_size : Int) then none
  else
    let data' := writeBytes p.data i bytes
    let sm' := alistInsert p.header.slot_map slot_id (e_idx, len)
    let hdr : Header :=
      { p.header with
        slot_map := sm',
        open_slot := findNextSlot sm',
        s_space := p.header.s_space + len }
    some ({ header := hdr, data := data' }, slot_id)

/-- `Page::add_value` (`page.rs` lines 197-213): reject empty values and
values larger than the free space, reject a full page (`open_slot` absent),
otherwise append at `open_slot`. -/
def Page.add_value (p : Page) (bytes : List Nat) : Option (Page × Nat) :=
  if bytes.isEmpty ∨ p.get_free_space < bytes.length then none
  else
    match p.header.open_slot with
    | none => none
    | some os => p.append_slot os bytes

/-- `Page::get_value` (`page.rs` lines 216-236): `None` on an empty map, a
missing slot, or a tombstone; otherwise the payload bytes
`data[e_idx - len + 1 .. e_idx + 1]`. -/
def Page.get_value (p : Page) (slot_id : Nat) : Option (List Nat) :=
  if p.header.slot_map.isEmpty then none
  else
    match alistLookup p.header.slot_map slot_id with
    | some iv =>
        if iv.2 = 0 then none
        else
          let j := iv.1
          let i := j - iv.2 + 1
          some ((p.data.drop i).take (j + 1 - i))
    | none => none

/-- `Page::delete_value` (`page.rs` lines 243-284): shift the body bytes
between the header and the deleted payload up by `len`, zero the freed
bytes, bump every directory offset below the freed region, tombstone the
slot, recompute `open_slot` and shrink `s_space`.  `Ret.crash` models the
source's slice panics: `data[data_start..data_end]` with
`data_start > data_end` (which happens on every tombstoned slot, where
`data_end = 1`) or an out-of-range bound, and the `u16` underflow of
`e_idx - len`. -/
def Page.delete_value (p : Page) (slot_id : Nat) : Ret (Option Page) :=
  match alistLookup p.header.slot_map slot_id with
  | none => .ok none
  | some iv =>
    let eidx := iv.1
    let len := iv.2
    if len > eidx ∧ len ≠ 0 then .crash
    else
      let data_start := p.get_header_size
      let data_end := eidx - len + 1
      if data_start > data_end ∨ data_end + len > PAGE_SIZE then .crash
      else
        let moved := (p.data.drop data_start).take (data_end - data_start)
        let d1 := writeBytes p.data (data_start + len) moved
        let d2 := writeBytes d1 data_start (List.replicate len 0)
        let sm1 := p.header.slot_map.map
          (fun e => if e.2.1 < data_end then (e.1, (e.2.1 + len, e.2.2)) else e)
        let sm2 := alistInsert sm1 slot_id (0, 0)
        let hdr : Header :=
          { p.header with
            slot_map := sm2,
            open_slot := findNextSlot sm2,
            s_space := p.header.s_space - len }
        .ok (some { header := hdr, data := d2 })

/-- `Page::new` (`page.rs` lines 161-175): fresh header with
`open_slot = Some(0)`, empty slot map, zeroed data. -/
def Page.new (page_id : Nat) : Page :=
  ⟨{ p_id := page_id, open_slot := some 0, slot_map := [], s_space := 0 },
   List.replicate PAGE_SIZE 0⟩

/-- Insert a value into an ascending list, used to model `keys.sort()`. -/
def insertSorted (x : Nat) : List Nat → List Nat
  | [] => [x]
  | y :: ys => if x ≤ y then x :: y :: ys else y :: insertSorted x ys

/-- Ascending sort of the slot-map keys (`keys.sort()` in `to_bytes`). -/
def sortNat (l : List Nat) : List Nat := l.foldr insertSorted []

/-- `Page::to_bytes` (`page.rs` lines 359-402): copy the data, then write
`p_id` at 0, the open-slot present flag at 2, the open-slot value at 3,
the entry count at 5, and the directory entries in ascending key order
from offset 7.  The source writes flag 0 for `None` but then calls
`open_slot.unwrap()` unconditionally, so serializing a page whose
`open_slot` is absent panics: `Ret.crash`. -/
def Page.to_bytes (p : Page) : Ret (List Nat) :=
  match p.header.open_slot with
  | none => .crash
  | some os =>
    let res := p.data
    let res := writeBytes res 0 (u16le p.header.p_id)
    let res := writeBytes res 2 [1]
    let res := writeBytes res 3 (u16le os)
    let res := writeBytes res 5 (u16le p.header.slot_map.length)
    let keys := sortNat (p.header.slot_map.map (·.1))
    let res := (keys.foldl
      (fun acc k =>
        let e := (alistLookup p.header.slot_map k).getD (0, 0)
        (writeBytes acc.1 acc.2 (u16le k ++ u16le e.1 ++ u16le e.2), acc.2 + 6))
      (res, 7)).1
    .ok res

/-- `Page::from_bytes` (`page.rs` lines 292-351): decode `p_id`, the
open-slot flag and value, and `num_slots` directory entries from offset 7;
recompute `s_space` as the sum of the entry lengths; keep the buffer as the
page data.  Callers always pass exactly `PAGE_SIZE` bytes. -/
def Page.from_bytes (data : List Nat) : Page :=
  let p_id := readU16 data 0
  let flag := byteAt data 2
  let open_val := readU16 data 3
  let num_slots := readU16 data 5
  let option_open_slot := if flag = 1 then some open_val else none
  let sm := (List.range num_slots).foldl
    (fun sm i =>
      let idx := 7 + 6 * i
      alistInsert sm (readU16 data idx) (readU16 data (idx + 2), readU16 data (idx + 4)))
    []
  let s_space := sm.foldl (fun s e => s + e.2.2) 0
  ⟨{ p_id := p_id, open_slot := option_open_slot, slot_map := sm, s_space := s_space },
   data.take PAGE_SIZE ++ List.replicate (PAGE_SIZE - data.length) 0⟩

/-- `PageIntoIter::next` (`page.rs` lines 469-498) driven to exhaustion:
starting from `next_slot`, stop once `next_slot > max_slot`; skip slot ids
missing from the map and tombstones; emit `(get_value(slot).unwrap(), slot)`
for live slots.  The `unwrap` cannot fail on a live slot, so it is modelled
with a default. -/
def collectItems (p : Page) (max_slot : Nat) (next_slot : Nat) : List (List Nat × Nat) :=
  if next_slot > max_slot then []
  else
    match alistLookup p.header.slot_map next_slot with
    | none => collectItems p max_slot (next_slot + 1)
    | some e =>
        if e.2 = 0 then collectItems p max_slot (next_slot + 1)
        else ((p.get_value next_slot).getD [], next_slot) :: collectItems p max_slot (next_slot + 1)
termination_by max_slot + 1 - next_slot
decreasing_by all_goals omega

/-- `Page::into_iter` (`page.rs` lines 504-515) followed by full iteration:
`max_slot` is the slot-map length and iteration starts at slot 0. -/
def Page.iterItems (p : Page) : List (List Nat × Nat) :=
  collectItems p p.header.slot_map.length 0

/-- `common::ids::ValueId` as used by the storage manager: the container id
plus optional page and slot ids (unwrapped, hence a potential panic, at
each use site). -/
structure ValueId where
  container_id : Nat
  page_id : Option Nat
  slot_id : Option Nat
deriving DecidableEq, Repr

/-- The storage manager's container map `c_map` (`storage_manager.rs`):
container id to heap-file content, where a heap file's on-disk content
(`heapfile.rs`) is the list of its `PAGE_SIZE`-byte page buffers in file
order and `pg_cnt` is that list's length. -/
abbrev SM : Type := List (Nat × List (List Nat))

/-- `HeapFile::read_page_from_file` (`heapfile.rs` lines 97-131): scan the
file one page at a time, decode each, and return the first page whose
embedded `p_id` matches; `none` models the not-found `Err`. -/
def readPageFromFile : List (List Nat) → Nat → Option Page
  | [], _ => none
  | buf :: rest, pid =>
      let page := Page.from_bytes buf
      if page.header.p_id = pid then some page else readPageFromFile rest pid

/-- The scan-and-replace of `HeapFile::write_page_to_file` (`heapfile.rs`
lines 135-197): overwrite the first stored page whose decoded `p_id`
matches, else append at end of file. -/
def replaceOrAppend : List (List Nat) → Nat → List Nat → List (List Nat)
  | [], _, bytes => [bytes]
  | buf :: rest, pid, bytes =>
      if (Page.from_bytes buf).header.p_id = pid then bytes :: rest
      else buf :: replaceOrAppend rest pid bytes

/-- `HeapFile::write_page_to_file`: serialize the page (a panic in
`to_bytes` propagates) and scan-replace or append. -/
def writePageToFile (hf : List (List Nat)) (page : Page) : Ret (List (List Nat)) :=
  match page.to_bytes with
  | .crash => .crash
  | .ok bytes => .ok (replaceOrAppend hf page.header.p_id bytes)

/-- `StorageManager::get_page` (`storage_manager.rs` lines 35-54): `None`
when the container is missing or the heap-file read errs. -/
def smGetPage (sm : SM) (cid : Nat) (pid : Nat) : Option Page :=
  match alistLookup sm cid with
  | none => none
  | some hf => readPageFromFile hf pid

/-- `StorageManager::write_page` (`storage_manager.rs` lines 57-70):
`ok none` models the `Err` on a missing container; on success the
container's file content is replaced. -/
def smWritePage (sm : SM) (cid : Nat) (page : Page) : Ret (Option SM) :=
  match alistLookup sm cid with
  | none => .ok none
  | some hf =>
      match writePageToFile hf page with
      | .crash => .crash
      | .ok hf' => .ok (some (alistInsert sm cid hf'))

/-- `StorageManager::delete_value` (`storage_manager.rs` lines 271-279):
`get_page(container, page_id.unwrap()).unwrap()`, then the page-level
delete (its return value is discarded but its panics propagate), then
`write_page(...).unwrap()`, then `Ok(())`.  Every `unwrap` of a missing
value is a `Ret.crash`. -/
def smDeleteValue (sm : SM) (id : ValueId) : Ret SM :=
  match id.page_id with
  | none => .crash
  | some pid =>
    match smGetPage sm id.container_id pid with
    | none => .crash
    | some page =>
      match id.slot_id with
      | none => .crash
      | some sid =>
        match page.delete_value sid with
        | .crash => .crash
        | .ok opt =>
          let page' := opt.getD page
          match smWritePage sm id.container_id page' with
          | .crash => .crash
          | .ok none => .crash
          | .ok (some sm') => .ok sm'

/-- `StorageManager::get_value` (`storage_manager.rs` lines 359-372):
`get_page(...).unwrap()` then the page-level lookup; `ok none` models the
`Err("Unable to get value")` branch. -/
def smGetValue (sm : SM) (id : ValueId) : Ret (Option (List Nat)) :=
  match id.page_id with
  | none => .crash
  | some pid =>
    match smGetPage sm id.container_id pid with
    | none => .crash
    | some page =>
      match id.slot_id with
      | none => .crash
      | some sid => .ok (page.get_value sid)

/-- The page-scan loop of `StorageManager::insert_value`
(`storage_manager.rs` lines 217-251): try `add_value` on page `p_id`; on
success write the page back and return; on failure move to `p_id + 1`,
and once `p_id` reaches the page count append a fresh page (whose
`add_value(...).unwrap()` panics if even a fresh page rejects the value).
`fuel` counts the remaining existing pages; the loop runs at most
`num_pages` iterations. -/
def smInsertLoop (sm : SM) (cid : Nat) (value : List Nat) : Nat → Nat → Ret (SM × ValueId)
  | p_id, fuel =>
    match smGetPage sm cid p_id with
    | none => .crash
    | some pg =>
      match pg.add_value value with
      | some (pg', slot_id) =>
          (match smWritePage sm cid pg' with
           | .crash => .crash
           | .ok none => .crash
           | .ok (some sm') => .ok (sm', ⟨cid, some p_id, some slot_id⟩))
      | none =>
          let p_id' := p_id + 1
          if p_id' ≥ ((alistLookup sm cid).getD []).length then
            let np := Page.new p_id'
            match np.add_value value with
            | none => .crash
            | some (np', slot_id) =>
                (match smWritePage sm cid np' with
                 | .crash => .crash
                 | .ok none => .crash
                 | .ok (some sm') => .ok (sm', ⟨cid, some p_id', some slot_id⟩))
          else
            match fuel with
            | 0 => .crash
            | fuel' + 1 => smInsertLoop sm cid value p_id' fuel'

/-- `StorageManager::insert_value` (`storage_manager.rs` lines 191-252):
panic when the value exceeds `PAGE_SIZE`; when the container has zero
pages, create page 0, call `add_value` with its result discarded, write
the page, and return value id `(container, page 0, slot 0)`
unconditionally; otherwise run the page-scan loop from page 0.
Indexing `c_map[&container_id]` panics when the container is absent. -/
def smInsertValue (sm : SM) (cid : Nat) (value : List Nat) : Ret (SM × ValueId) :=
  if value.length > PAGE_SIZE then .crash
  else
    match alistLookup sm cid with
    | none => .crash
    | some hf =>
      if hf.length = 0 then
        let np := Page.new 0
        let np := ((np.add_value value).map Prod.fst).getD np
        match smWritePage sm cid np with
        | .crash => .crash
        | .ok none => .crash
        | .ok (some sm') => .ok (sm', ⟨cid, some 0, some 0⟩)
      else smInsertLoop sm cid value 0 hf.length

/-- `common::Field`, modelled from the spec: a field is an integer or a
string; fields are totally ordered (used by Min/Max over both types). -/
inductive Field where
  | int (n : Int)
  | str (s : String)
deriving DecidableEq, Repr

/-- Modelled from the spec: the derived total order on `common::Field`,
integers below strings (variant order), each compared naturally. -/
def Field.le : Field → Field → Bool
  | .int a, .int b => a ≤ b
  | .int _, .str _ => true
  | .str _, .int _ => false
  | .str a, .str b => a ≤ b

/-- `std::cmp::max` under the `Field` order. -/
def fieldMax (a b : Field) : Field := if Field.le a b then b else a

/-- `std::cmp::min` under the `Field` order. -/
def fieldMin (a b : Field) : Field := if Field.le a b then a else b

/-- `common::Tuple`, modelled from the spec: an ordered sequence of fields.
`get_field(i)` is `List.get?`; joining concatenates field lists. -/
abbrev Tuple : Type := List Field

/-- `tuple.get_field(i).unwrap()`: every use site passes an in-range
index (the source panics otherwise). -/
def getFieldD (t : Tuple) (i : Nat) : Field := (List.get? t i).getD (Field.int 0)

/-- The build phase of `HashEqJoin::new` (`join.rs` lines 233-255): drain
the right child, and for each tuple push it onto the bucket of its join
field (appending preserves right-child order within a bucket). -/
def buildHashTable (right_index : Nat) (rights : List Tuple) : List (Field × List Tuple) :=
  rights.foldl
    (fun tbl t =>
      let field := getFieldD t right_index
      match alistLookup tbl field with
      | some v => alistInsert tbl field (v ++ [t])
      | none => alistInsert tbl field [t])
    []

/-- `HashEqJoin::next` (`join.rs` lines 268-304) driven to exhaustion over
the remaining left tuples: each call takes the next left tuple; if its
join field is a key of the hash table the call returns the left tuple
concatenated with only the FIRST bucket entry (`.iter().next()`); if the
bucket were empty the call would fall through to `Ok(None)`, ending the
iteration; on a missing key the call recurses to the next left tuple. -/
def hashEqJoinDrain (tbl : List (Field × List Tuple)) (left_index : Nat) :
    List Tuple → List Tuple
  | [] => []
  | l :: rest =>
    let field := getFieldD l left_index
    match alistLookup tbl field with
    | some bucket =>
        match bucket with
        | r :: _ => (l ++ r) :: hashEqJoinDrain tbl left_index rest
        | [] => []
    | none => hashEqJoinDrain tbl left_index rest

/-- The full output stream of the source's `HashEqJoin` for in-memory
children: build from the right child, then drain `next` over the left. -/
def hashEqJoinOutputs (left_index right_index : Nat)
    (lefts rights : List Tuple) : List Tuple :=
  hashEqJoinDrain (buildHashTable right_index rights) left_index lefts

/-- Modelled from the spec: the hash equi-join design contract.  For each
left tuple `L` with key `k`, emit `L` joined with `r` for every right
tuple `r` whose key equals `k`, one output per matched right tuple, in
the order `r` was inserted during build (right-child order). -/
def specHashEqJoinOutputs (left_index right_index : Nat)
    (lefts rights : List Tuple) : List Tuple :=
  lefts.flatMap
    (fun l =>
      (rights.filter (fun r => getFieldD r right_index = getFieldD l left_index)).map
        (fun r => l ++ r))

/-- `common::AggOp`: the five aggregation operators. -/
inductive AggOp where
  | count
  | sum
  | min
  | max
  | avg
deriving DecidableEq, Repr

/-- `aggregate.rs`, `struct AggregateField`: the input column index and the
operator applied to it. -/
structure AggregateField where
  field : Nat
  op : AggOp
deriving DecidableEq, Repr

/-- `Field::unwrap_int_field`: the integer payload.  The source panics on a
string field (the spec allows Sum/Avg to panic on non-integer fields); the
embedding returns 0 there, and no claim concerns those values. -/
def unwrapInt : Field → Int
  | .int n => n
  | .str _ => 0

/-- The free helper `merge` (`aggregate.rs` lines 19-79).  `groupTuples` is
`group_tupes[&hash]`, the group's tuple list including the tuple being
merged, and `attr` is the aggregated column (the source passes the group
key and the whole map; the looked-up list is passed directly here).  It
first computes the group's integer sum and its count, then dispatches on
the operator; with no running value it returns the new field, except Count
which returns 1 (via `item`).  Avg recomputes `sum / cnt` with Rust `i32`
division (truncation toward zero, `Int.tdiv`). -/
def merge (aggregator : AggregateField) (run : Option Field) (new : Field)
    (groupTuples : List Tuple) (attr : Nat) : Field :=
  let sum : Int := groupTuples.foldl
    (fun s t =>
      match getFieldD t attr with
      | .int n => s + n
      | .str _ => s)
    0
  let cnt : Int := groupTuples.length
  let running := run.getD (Field.int 0)
  let pair : Field × Bool :=
    match aggregator.op with
    | .count => (Field.int cnt, false)
    | .sum => (Field.int (unwrapInt running + unwrapInt new), true)
    | .max => (fieldMax running new, true)
    | .min => (fieldMin running new, true)
    | .avg => (Field.int (Int.tdiv sum cnt), true)
  match run with
  | some _ => pair.1
  | none => if pair.2 then new else Field.int 1

/-- `aggregate.rs`, `struct Aggregator`: the aggregate fields, the group-by
column indices, the per-group accumulated tuple, and the per-group list of
input tuples.  The two maps are `HashMap`s modelled as insertion-ordered
association lists. -/
structure Aggregator where
  agg_fields : List AggregateField
  groupby_fields : List Nat
  group_aggs : List (List Field × Tuple)
  group_tupes : List (List Field × List Tuple)
deriving Repr

/-- `Aggregator::merge_tuple_into_group` (`aggregate.rs` lines 123-184):
build the group key from the group-by columns, push the tuple onto the
group's tuple list, then either merge into the existing accumulated tuple
field by field, or build a fresh accumulated tuple (placeholder from the
tuple's own agg-column values, then a `run = None` merge per field). -/
def mergeTupleIntoGroup (a : Aggregator) (tuple : Tuple) : Aggregator :=
  let key := a.groupby_fields.map (fun i => getFieldD tuple i)
  let group_tupes :=
    match alistLookup a.group_tupes key with
    | some v => alistInsert a.group_tupes key (v ++ [tuple])
    | none => alistInsert a.group_tupes key [tuple]
  let gt := (alistLookup group_tupes key).getD []
  match alistLookup a.group_aggs key with
  | some agg_tup =>
      let agg_tup' := (List.range a.agg_fields.length).foldl
        (fun t i =>
          let cf := (List.get? a.agg_fields i).getD ⟨0, .count⟩
          let field := getFieldD tuple cf.field
          let agg_field := getFieldD t i
          t.set i (merge cf (some agg_field) field gt cf.field))
        agg_tup
      { a with group_tupes := group_tupes,
               group_aggs := alistInsert a.group_aggs key agg_tup' }
  | none =>
      let placeholder := a.agg_fields.map (fun cf => getFieldD tuple cf.field)
      let agg_tup' := (List.range a.agg_fields.length).foldl
        (fun t i =>
          let cf := (List.get? a.agg_fields i).getD ⟨0, .count⟩
          let field := getFieldD tuple cf.field
          t.set i (merge cf none field gt cf.field))
        placeholder
      { a with group_tupes := group_tupes,
               group_aggs := alistInsert a.group_aggs key agg_tup' }

/-- The result rows of `Aggregator::iterator` (`aggregate.rs` lines
189-204): one row per `group_aggs` entry, the key fields followed by the
accumulated fields.  The source iterates `for (key, value) in
&self.group_aggs`, a `std::collections::HashMap` whose iteration order is
unspecified; `ord` stands for that order and ranges over the permutations
of the entry list. -/
def aggregatorRows (ord : List (List Field × Tuple) → List (List Field × Tuple))
    (a : Aggregator) : List Tuple :=
  (ord a.group_aggs).map (fun e => e.1 ++ e.2)

/-- The observable state of the `Aggregate` operator (`aggregate.rs`,
`struct Aggregate`): the cached result rows, the cursor into them, and the
open flag.  The schema and the retained child are not needed by any
claim. -/
structure AggregateOp where
  tuples : List Tuple
  tuple_idx : Nat
  is_open : Bool
deriving Repr

/-- The group-map fold performed by `Aggregate::new` (`aggregate.rs` lines
273-303): `agg_fields` is zipped from `agg_indices` and `ops`, and every
child tuple is merged into a fresh `Aggregator`. -/
def aggFold (groupby_indices agg_indices : List Nat) (ops : List AggOp)
    (child : List Tuple) : Aggregator :=
  let agg_fields := (List.range agg_indices.length).map
    (fun i => AggregateField.mk ((List.get? agg_indices i).getD 0)
      ((List.get? ops i).getD .count))
  child.foldl mergeTupleIntoGroup
    { agg_fields := agg_fields, groupby_fields := groupby_indices,
      group_aggs := [], group_tupes := [] }

/-- `Aggregate::new` (`aggregate.rs` lines 238-303): at construction the
child is opened and fully drained into the group map, the result iterator
is drained into the cached `tuples` vector, the cursor starts at 0, and
the operator is not yet open. -/
def Aggregate.new (ord : List (List Field × Tuple) → List (List Field × Tuple))
    (groupby_indices agg_indices : List Nat) (ops : List AggOp)
    (child : List Tuple) : AggregateOp :=
  { tuples := aggregatorRows ord (aggFold groupby_indices agg_indices ops child),
    tuple_idx := 0,
    is_open := false }

/-- `Aggregate::next` (`aggregate.rs` lines 322-333): panic when not open;
return the cached row at `tuple_idx` and advance, or `None` past the
end. -/
def aggNext (s : AggregateOp) : Ret (Option Tuple × AggregateOp) :=
  if ¬s.is_open then .crash
  else if s.tuple_idx < s.tuples.length then
    .ok (List.get? s.tuples s.tuple_idx, { s with tuple_idx := s.tuple_idx + 1 })
  else .ok (none, s)

/-- `Aggregate::rewind` (`aggregate.rs` lines 352-365): panic when not
open; reset `tuple_idx` to 0 (the child and cached iterator rewinds do not
affect the cached rows). -/
def aggRewind (s : AggregateOp) : Ret AggregateOp :=
  if ¬s.is_open then .crash
  else .ok { s with tuple_idx := 0 }

/-- First-appearance order of group keys in a child stream: the order in
which `merge_tuple_into_group` first inserts each key. -/
def firstAppearanceKeys (groupby_indices : List Nat) (child : List Tuple) :
    List (List Field) :=
  child.foldl
    (fun acc t =>
      let key := groupby_indices.map (fun i => getFieldD t i)
      if key ∈ acc then acc else acc ++ [key])
    []

/-- The ids of the tombstoned directory entries (length 0). -/
def tombIds (sm : List (Nat × Nat × Nat)) : List Nat :=
  (sm.filter (fun e => decide (e.2.2 = 0))).map Prod.fst

/-- The ids of the live directory entries (length not 0). -/
def liveIds (sm : List (Nat × Nat × Nat)) : List Nat :=
  (sm.filter (fun e => decide (e.2.2 ≠ 0))).map Prod.fst

/-- Whether slot `s` is present and live on page `p`. -/
def slotLiveB (p : Page) (s : Nat) : Bool :=
  match alistLookup p.header.slot_map s with
  | some e => decide (e.2 ≠ 0)
  | none => false

/-- The pages reachable from `Page::new` by successful `add_value` and
`delete_value` calls: the page states the storage layer actually
produces. -/
inductive Reachable : Page → Prop where
  | new (pid : Nat) : Reachable (Page.new pid)
  | add (p p' : Page) (v : List Nat) (s : Nat) :
      Reachable p → p.add_value v = some (p', s) → Reachable p'
  | del (p p' : Page) (s : Nat) :
      Reachable p → p.delete_value s = .ok (some p') → Reachable p'

/-- Structural invariant of reachable pages: the directory keys are
exactly `0, 1, …, N-1` in insertion order, the directory is small, and
`open_slot` is 0 on an untouched page and otherwise the value
`find_next_slot` computes from the current directory. -/
def PageWf (p : Page) : Prop :=
  p.header.slot_map.map Prod.fst = List.range p.header.slot_map.length
  ∧ p.header.slot_map.length ≤ 681
  ∧ (p.header.slot_map = [] → p.header.open_slot = some 0)
  ∧ (p.header.slot_map ≠ [] → p.header.open_slot = findNextSlot p.header.slot_map)

/-- The page an `add_value` call produces (the unchanged page on
failure); scaffolding for concrete example states. -/
def pageAfterAdd (p : Page) (v : List Nat) : Page :=
  match p.add_value v with
  | some q => q.1
  | none => p

/-- The page a `delete_value` call produces (the unchanged page on
failure or panic); scaffolding for concrete example states. -/
def pageAfterDel (p : Page) (s : Nat) : Page :=
  match p.delete_value s with
  | .ok (some q) => q
  | _ => p

/-- The serialized bytes of a page (empty on the panic path);
scaffolding for concrete example states. -/
def bytesOf (p : Page) : List Nat :=
  match p.to_bytes with
  | .ok b => b
  | .crash => []

/-- A fresh page holding one 4085-byte payload of 7s: the payload region
`[11, 4096)` dips below the serialized header-plus-directory region
`[0, 13)`, because the free-space check reserved only the in-memory
header size (5 bytes for an empty directory). -/
def c2page : Page := pageAfterAdd (Page.new 0) (List.replicate 4085 7)

/-- A fresh page after inserting a 3-byte value at slot 0. -/
def c3pageA : Page := pageAfterAdd (Page.new 0) [7, 7, 7]

/-- The same page after deleting slot 0: a reachable page whose only
directory entry is the tombstone `(0, (0, 0))`. -/
def c3page : Page := pageAfterDel c3pageA 0

/-- A fresh page after inserting a 1-byte value at slot 0. -/
def c6page : Page := pageAfterAdd (Page.new 0) [1]

/-- The header of the page holding one 4085-byte value at slot 0. -/
def c2hdr : Header :=
  { p_id := 0, open_slot := some 1, slot_map := [(0, (4095, 4085))], s_space := 4085 }

/-- A storage manager holding container 0 with an empty heap file. -/
def c7sm0 : SM := [(0, [])]

/-- The on-disk bytes of page 0 after inserting `[9, 9, 9]` into a fresh
page. -/
def insBytes : List Nat := bytesOf (pageAfterAdd (Page.new 0) [9, 9, 9])

/-- The manager after inserting one 3-byte value into container 0. -/
def c7sm1 : SM := [(0, [insBytes])]

/-- The value id the insert above returns. -/
def c7id : ValueId := ⟨0, some 0, some 0⟩

/-- The on-disk bytes of page 0 after deleting slot 0 again. -/
def tombBytes : List Nat := bytesOf (pageAfterDel (Page.from_bytes insBytes) 0)

/-- The manager after deleting that value once. -/
def c7sm2 : SM := [(0, [tombBytes])]

/-- The serialized bytes of a fresh page 0 (written by `insert_value`
when the container has no pages). -/
def fp0bytes : List Nat := bytesOf (Page.new 0)

/-- Left child for the hash-join example: one tuple with join key 1. -/
def c1lefts : List Tuple := [[Field.int 1, Field.int 7]]

/-- Right child for the hash-join example: two tuples with join key 1. -/
def c1rights : List Tuple := [[Field.int 1, Field.int 8], [Field.int 1, Field.int 9]]

/-- Child stream for the aggregate example: two distinct group keys in
the order 1 then 2. -/
def c8child : List Tuple := [[Field.int 1], [Field.int 2]]

/-!
Supporting lemmas: association-list laws, characterizations of the
`find_next_slot` fold, inversion principles for `add_value` and
`delete_value`, and the structural invariant `PageWf` maintained by every
reachable page.
-/

section AListLemmas

variable {α β : Type} [DecidableEq α]

theorem alistLookup_isSome_iff {m : List (α × β)} {k : α} :
    (alistLookup m k).isSome ↔ k ∈ m.map Prod.fst := by
  induction m with
  | nil => simp [alistLookup]
  | cons e rest ih =>
      obtain ⟨k', v⟩ := e
      by_cases h : k' = k
      · subst h
        simp [alistLookup]
      · simp [alistLookup, h, ih, Ne.symm h]

theorem alistLookup_eq_none_iff {m : List (α × β)} {k : α} :
    alistLookup m k = none ↔ k ∉ m.map Prod.fst := by
  rw [← alistLookup_isSome_iff, Option.isSome_iff_ne_none]
  tauto

theorem alistInsert_map_fst_of_mem {m : List (α × β)} {k : α} (v : β)
    (h : k ∈ m.map Prod.fst) :
    (alistInsert m k v).map Prod.fst = m.map Prod.fst := by
  induction m with
  | nil => simp at h
  | cons e rest ih =>
      obtain ⟨k', v'⟩ := e
      by_cases hk : k' = k
      · subst hk
        simp [alistInsert]
      · simp only [List.map_cons, List.mem_cons] at h
        rcases h with h | h
        · exact absurd h.symm hk
        · simp [alistInsert, hk, ih h]

theorem alistInsert_map_fst_of_not_mem {m : List (α × β)} {k : α} (v : β)
    (h : k ∉ m.map Prod.fst) :
    (alistInsert m k v).map Prod.fst = m.map Prod.fst ++ [k] := by
  induction m with
  | nil => simp [alistInsert]
  | cons e rest ih =>
      obtain ⟨k', v'⟩ := e
      simp only [List.map_cons, List.mem_cons, not_or] at h
      simp [alistInsert, Ne.symm h.1, ih h.2]

theorem alistLookup_alistInsert_self {m : List (α × β)} {k : α} (v : β) :
    alistLookup (alistInsert m k v) k = some v := by
  induction m with
  | nil => simp [alistInsert, alistLookup]
  | cons e rest ih =>
      obtain ⟨k', v'⟩ := e
      by_cases hk : k' = k
      · subst hk
        simp [alistInsert, alistLookup]
      · simp [alistInsert, alistLookup, hk, ih]

theorem alistLookup_alistInsert_ne {m : List (α × β)} {k k' : α} (v : β)
    (h : k' ≠ k) :
    alistLookup (alistInsert m k v) k' = alistLookup m k' := by
  induction m with
  | nil => simp [alistInsert, alistLookup, Ne.symm h]
  | cons e rest ih =>
      obtain ⟨k'', v'⟩ := e
      by_cases hk : k'' = k
      · subst hk
        simp [alistInsert, alistLookup, Ne.symm h]
      · by_cases hk' : k'' = k'
        · subst hk'
          simp [alistInsert, alistLookup, hk]
        · simp [alistInsert, alistLookup, hk, hk', ih]

end AListLemmas

section FoldLemmas

theorem foldl_min_le_init (l : List Nat) : ∀ a : Nat, l.foldl Nat.min a ≤ a := by
  induction l with
  | nil => simp
  | cons x rest ih =>
      intro a
      calc rest.foldl Nat.min (Nat.min a x) ≤ Nat.min a x := ih _
        _ ≤ a := Nat.min_le_left _ _

theorem foldl_min_le_mem (l : List Nat) : ∀ a x, x ∈ l → l.foldl Nat.min a ≤ x := by
  induction l with
  | nil => simp
  | cons y rest ih =>
      intro a x hx
      rcases List.mem_cons.mp hx with h | h
      · subst h
        calc rest.foldl Nat.min (Nat.min a x) ≤ Nat.min a x := foldl_min_le_init _ _
          _ ≤ x := Nat.min_le_right _ _
      · exact ih _ _ h

theorem foldl_min_eq_or_mem (l : List Nat) : ∀ a, l.foldl Nat.min a = a ∨ l.foldl Nat.min a ∈ l := by
  induction l with
  | nil => simp
  | cons y rest ih =>
      intro a
      rcases ih (Nat.min a y) with h | h
      · rcases Nat.le_total a y with hle | hle
        · left
          rw [List.foldl_cons, h]
          exact Nat.min_eq_left hle
        · right
          rw [List.foldl_cons, h]
          have hy : Nat.min a y = y := Nat.min_eq_right hle
          rw [hy]
          exact List.mem_cons_self _ _
      · right
        exact List.mem_cons_of_mem _ h

theorem le_foldl_max (l : List Nat) : ∀ a : Nat, a ≤ l.foldl Nat.max a := by
  induction l with
  | nil => simp
  | cons x rest ih =>
      intro a
      calc a ≤ Nat.max a x := Nat.le_max_left _ _
        _ ≤ rest.foldl Nat.max (Nat.max a x) := ih _

theorem mem_le_foldl_max (l : List Nat) : ∀ a x, x ∈ l → x ≤ l.foldl Nat.max a := by
  induction l with
  | nil => simp
  | cons y rest ih =>
      intro a x hx
      rcases List.mem_cons.mp hx with h | h
      · subst h
        calc x ≤ Nat.max a x := Nat.le_max_right _ _
          _ ≤ rest.foldl Nat.max (Nat.max a x) := le_foldl_max _ _
      · exact ih _ _ h

theorem foldl_max_eq_or_mem (l : List Nat) : ∀ a, l.foldl Nat.max a = a ∨ l.foldl Nat.max a ∈ l := by
  induction l with
  | nil => simp
  | cons y rest ih =>
      intro a
      rcases ih (Nat.max a y) with h | h
      · rcases Nat.le_total a y with hle | hle
        · right
          rw [List.foldl_cons, h]
          have hy : Nat.max a y = y := Nat.max_eq_right hle
          rw [hy]
          exact List.mem_cons_self _ _
        · left
          rw [List.foldl_cons, h]
          exact Nat.max_eq_left hle
      · right
        exact List.mem_cons_of_mem _ h

end FoldLemmas

theorem min_ite_eq (x m : Nat) : (if x < m then x else m) = Nat.min m x := by
  rcases Nat.lt_or_ge x m with h | h
  · rw [if_pos h]
    exact (Nat.min_eq_right (Nat.le_of_lt h)).symm
  · rw [if_neg (Nat.not_lt.mpr h)]
    exact (Nat.min_eq_left h).symm

theorem max_ite_eq (x m : Nat) : (if x > m then x else m) = Nat.max m x := by
  rcases Nat.lt_or_ge m x with h | h
  · rw [if_pos h]
    exact (Nat.max_eq_right (Nat.le_of_lt h)).symm
  · rw [if_neg (Nat.not_lt.mpr h)]
    exact (Nat.max_eq_left h).symm

theorem tombIds_cons_tomb (e : Nat × Nat × Nat) (rest : List (Nat × Nat × Nat))
    (he : e.2.2 = 0) : tombIds (e :: rest) = e.1 :: tombIds rest := by
  simp [tombIds, List.filter_cons, he]

theorem tombIds_cons_live (e : Nat × Nat × Nat) (rest : List (Nat × Nat × Nat))
    (he : ¬e.2.2 = 0) : tombIds (e :: rest) = tombIds rest := by
  simp [tombIds, List.filter_cons, he]

theorem foldl_fnsStep_eq (sm : List (Nat × Nat × Nat)) : ∀ mn mx dl,
    sm.foldl fnsStep (mn, mx, dl)
      = ((tombIds sm).foldl Nat.min mn,
         (sm.map Prod.fst).foldl Nat.max mx,
         (dl || !(tombIds sm).isEmpty)) := by
  induction sm with
  | nil => simp [tombIds]
  | cons e rest ih =>
      intro mn mx dl
      by_cases he : e.2.2 = 0
      · have hstep : fnsStep (mn, mx, dl) e = (Nat.min mn e.1, Nat.max mx e.1, true) := by
          simp only [fnsStep, he, if_true, true_and, min_ite_eq, max_ite_eq]
        rw [List.foldl_cons, hstep, ih, tombIds_cons_tomb e rest he]
        simp
      · have hstep : fnsStep (mn, mx, dl) e = (mn, Nat.max mx e.1, dl) := by
          simp only [fnsStep, he, false_and, if_false, max_ite_eq]
        rw [List.foldl_cons, hstep, ih, tombIds_cons_live e rest he]
        simp

theorem findNextSlot_tomb (sm : List (Nat × Nat × Nat)) (h : tombIds sm ≠ []) :
    findNextSlot sm = some ((tombIds sm).foldl Nat.min 65535) := by
  unfold findNextSlot
  rw [foldl_fnsStep_eq]
  simp [List.isEmpty_iff, h]

theorem findNextSlot_no_tomb (sm : List (Nat × Nat × Nat)) (h : tombIds sm = []) :
    findNextSlot sm
      = if (sm.map Prod.fst).foldl Nat.max 0 + 1 < 65535
        then some ((sm.map Prod.fst).foldl Nat.max 0 + 1) else none := by
  unfold findNextSlot
  rw [foldl_fnsStep_eq]
  simp [h]

theorem tombIds_subset (sm : List (Nat × Nat × Nat)) :
    ∀ x ∈ tombIds sm, x ∈ sm.map Prod.fst := by
  intro x hx
  simp only [tombIds, List.mem_map] at hx
  obtain ⟨e, he, hfst⟩ := hx
  exact List.mem_map.mpr ⟨e, List.mem_of_mem_filter he, hfst⟩

theorem liveIds_eq_keys (sm : List (Nat × Nat × Nat)) (h : tombIds sm = []) :
    liveIds sm = sm.map Prod.fst := by
  have hall : ∀ e ∈ sm, ¬e.2.2 = 0 := by
    intro e he
    intro h0
    have : e.1 ∈ tombIds sm := by
      simp only [tombIds, List.mem_map]
      exact ⟨e, List.mem_filter.mpr ⟨he, by simp [h0]⟩, rfl⟩
    rw [h] at this
    exact absurd this (List.not_mem_nil _)
  unfold liveIds
  congr 1
  apply List.filter_eq_self.mpr
  intro e he
  simp [hall e he]

theorem cborLen_bounds (o : Option Nat) : 1 ≤ cborLenOptU16 o ∧ cborLenOptU16 o ≤ 3 := by
  cases o with
  | none => simp [cborLenOptU16]
  | some x =>
      simp only [cborLenOptU16]
      split
      · omega
      · split <;> omega

theorem add_value_inv {p p' : Page} {v : List Nat} {s : Nat}
    (h : p.add_value v = some (p', s)) :
    v.isEmpty = false
    ∧ v.length ≤ p.get_free_space
    ∧ p.header.open_slot = some s
    ∧ (p.get_header_size : Int) ≤ ((PAGE_SIZE - p.header.s_space - v.length : Nat) : Int) - 6
    ∧ p'.header.slot_map
        = alistInsert p.header.slot_map s (PAGE_SIZE - p.header.s_space - 1, v.length)
    ∧ p'.header.open_slot = findNextSlot p'.header.slot_map
    ∧ p'.header.s_space = p.header.s_space + v.length
    ∧ p'.header.p_id = p.header.p_id := by
  unfold Page.add_value at h
  by_cases h1 : v.isEmpty = true ∨ p.get_free_space < v.length
  · rw [if_pos h1] at h
    exact absurd h (by simp)
  · rw [if_neg h1] at h
    rw [not_or] at h1
    obtain ⟨hne, hfree⟩ := h1
    cases hos : p.header.open_slot with
    | none =>
        rw [hos] at h
        exact absurd h (by simp)
    | some os =>
        rw [hos] at h
        simp only [Page.append_slot] at h
        by_cases h2 : ((PAGE_SIZE - p.header.s_space - v.length : Nat) : Int) - 6
            < (p.get_header_size : Int)
        · rw [if_pos h2] at h
          exact absurd h (by simp)
        · rw [if_neg h2] at h
          simp only [Option.some.injEq, Prod.mk.injEq] at h
          obtain ⟨hp', hs⟩ := h
          subst hs
          refine ⟨by simpa using hne, Nat.not_lt.mp hfree, rfl, Int.not_lt.mp h2, ?_, ?_, ?_, ?_⟩
          · rw [← hp']
          · rw [← hp']
          · rw [← hp']
          · rw [← hp']

theorem delete_value_inv {p p' : Page} {s0 : Nat}
    (h : p.delete_value s0 = .ok (some p')) :
    ∃ iv, alistLookup p.header.slot_map s0 = some iv
    ∧ p'.header.slot_map
        = alistInsert
            (p.header.slot_map.map
              (fun e => if e.2.1 < iv.1 - iv.2 + 1 then (e.1, (e.2.1 + iv.2, e.2.2)) else e))
            s0 (0, 0)
    ∧ p'.header.open_slot = findNextSlot p'.header.slot_map := by
  unfold Page.delete_value at h
  cases hlk : alistLookup p.header.slot_map s0 with
  | none =>
      rw [hlk] at h
      exact absurd h (by simp)
  | some iv =>
      rw [hlk] at h
      simp only at h
      by_cases h1 : iv.2 > iv.1 ∧ iv.2 ≠ 0
      · rw [if_pos h1] at h
        exact absurd h (by simp)
      · rw [if_neg h1] at h
        by_cases h2 : p.get_header_size > iv.1 - iv.2 + 1 ∨ iv.1 - iv.2 + 1 + iv.2 > PAGE_SIZE
        · rw [if_pos h2] at h
          exact absurd h (by simp)
        · rw [if_neg h2] at h
          simp only [Ret.ok.injEq, Option.some.injEq] at h
          exact ⟨iv, rfl, by rw [← h], by rw [← h]⟩

theorem wf_new (pid : Nat) : PageWf (Page.new pid) := by
  refine ⟨rfl, by simp [Page.new], fun _ => rfl, fun hh => absurd rfl hh⟩

theorem wf_add {p p' : Page} {v : List Nat} {s : Nat}
    (hw : PageWf p) (h : p.add_value v = some (p', s)) : PageWf p' := by
  obtain ⟨hne, hfree, hos, hguard, hsm', hos', hss', hpid'⟩ := add_value_inv h
  obtain ⟨hkeys, hbound, hempty, hnonempty⟩ := hw
  have hcb := cborLen_bounds p.header.open_slot
  have hhs : p.get_header_size
      = 6 * p.header.slot_map.length + 4 + cborLenOptU16 p.header.open_slot := by
    unfold Page.get_header_size
    omega
  have hNle : p.header.slot_map.length ≤ 680 := by
    have h1 : (PAGE_SIZE - p.header.s_space - v.length : Nat) ≤ 4096 := by
      unfold PAGE_SIZE
      omega
    rw [hhs] at hguard
    have h2 : ((PAGE_SIZE - p.header.s_space - v.length : Nat) : Int) ≤ 4096 := by
      exact_mod_cast h1
    push_cast at hguard
    omega
  by_cases hsmE : p.header.slot_map = []
  · have h0 : p.header.open_slot = some 0 := hempty hsmE
    have hs0 : s = 0 := by
      rw [h0] at hos
      exact (Option.some.inj hos).symm
    have hsm2 : p'.header.slot_map = [(0, (PAGE_SIZE - p.header.s_space - 1, v.length))] := by
      rw [hsm', hsmE, hs0]
      rfl
    refine ⟨?_, ?_, ?_, fun _ => hos'⟩
    · rw [hsm2]
      rfl
    · rw [hsm2]
      simp
    · intro hh
      rw [hsm2] at hh
      exact absurd hh (by simp)
  · have hfns : findNextSlot p.header.slot_map = some s := by
      rw [← hnonempty hsmE, hos]
    by_cases htomb : tombIds p.header.slot_map = []
    · rw [findNextSlot_no_tomb _ htomb] at hfns
      by_cases hlt : (p.header.slot_map.map Prod.fst).foldl Nat.max 0 + 1 < 65535
      · rw [if_pos hlt] at hfns
        have hsM : s = (p.header.slot_map.map Prod.fst).foldl Nat.max 0 + 1 :=
          (Option.some.inj hfns).symm
        have hNpos : 0 < p.header.slot_map.length := List.length_pos.mpr hsmE
        have hN1mem : p.header.slot_map.length - 1 ∈ p.header.slot_map.map Prod.fst := by
          rw [hkeys]
          exact List.mem_range.mpr (by omega)
        have hle1 := mem_le_foldl_max (p.header.slot_map.map Prod.fst) 0 _ hN1mem
        have hM_eq : (p.header.slot_map.map Prod.fst).foldl Nat.max 0
            = p.header.slot_map.length - 1 := by
          rcases foldl_max_eq_or_mem (p.header.slot_map.map Prod.fst) 0 with hh | hh
          · omega
          · have h5 : (p.header.slot_map.map Prod.fst).foldl Nat.max 0
                < p.header.slot_map.length :=
              List.mem_range.mp (by rw [← hkeys]; exact hh)
            omega
        have hsN : s = p.header.slot_map.length := by omega
        have hnotmem : s ∉ p.header.slot_map.map Prod.fst := by
          rw [hkeys, hsN]
          simp
        have hkeys' : p'.header.slot_map.map Prod.fst
            = List.range (p.header.slot_map.length + 1) := by
          rw [hsm', alistInsert_map_fst_of_not_mem _ hnotmem, hkeys, hsN, List.range_succ]
        have hlen' : p'.header.slot_map.length = p.header.slot_map.length + 1 := by
          have h3 := congrArg List.length hkeys'
          simpa using h3
        refine ⟨?_, ?_, ?_, fun _ => hos'⟩
        · rw [hlen', hkeys']
        · omega
        · intro hh
          rw [hh] at hlen'
          simp only [List.length_nil] at hlen'
          omega
      · rw [if_neg hlt] at hfns
        exact absurd hfns (by simp)
    · rw [findNextSlot_tomb _ htomb] at hfns
      have hsmin : s = (tombIds p.header.slot_map).foldl Nat.min 65535 :=
        (Option.some.inj hfns).symm
      have hmem : s ∈ tombIds p.header.slot_map := by
        rcases foldl_min_eq_or_mem (tombIds p.header.slot_map) 65535 with hh | hh
        · exfalso
          obtain ⟨t, ht⟩ := List.exists_mem_of_ne_nil _ htomb
          have htk := tombIds_subset _ t ht
          rw [hkeys] at htk
          have h4 := List.mem_range.mp htk
          have hle := foldl_min_le_mem (tombIds p.header.slot_map) 65535 t ht
          omega
        · rw [hsmin]
          exact hh
      have hmemk : s ∈ p.header.slot_map.map Prod.fst := tombIds_subset _ s hmem
      have hkeys' : p'.header.slot_map.map Prod.fst
          = List.range p.header.slot_map.length := by
        rw [hsm', alistInsert_map_fst_of_mem _ hmemk, hkeys]
      have hlen' : p'.header.slot_map.length = p.header.slot_map.length := by
        have h3 := congrArg List.length hkeys'
        simpa using h3
      have hNpos : 0 < p.header.slot_map.length := List.length_pos.mpr hsmE
      refine ⟨?_, ?_, ?_, fun _ => hos'⟩
      · rw [hlen', hkeys']
      · omega
      · intro hh
        rw [hh] at hlen'
        simp only [List.length_nil] at hlen'
        omega

theorem wf_del {p p' : Page} {s0 : Nat}
    (hw : PageWf p) (h : p.delete_value s0 = .ok (some p')) : PageWf p' := by
  obtain ⟨iv, hlk, hsm', hos'⟩ := delete_value_inv h
  obtain ⟨hkeys, hbound, hempty, hnonempty⟩ := hw
  have hmem : s0 ∈ p.header.slot_map.map Prod.fst := by
    rw [← alistLookup_isSome_iff, hlk]
    rfl
  have hmapkeys : (p.header.slot_map.map
      (fun e => if e.2.1 < iv.1 - iv.2 + 1 then (e.1, (e.2.1 + iv.2, e.2.2)) else e)).map
        Prod.fst = p.header.slot_map.map Prod.fst := by
    rw [List.map_map]
    apply List.map_congr_left
    intro e he
    by_cases hc : e.2.1 < iv.1 - iv.2 + 1 <;> simp [hc]
  have hmem2 : s0 ∈ (p.header.slot_map.map
      (fun e => if e.2.1 < iv.1 - iv.2 + 1 then (e.1, (e.2.1 + iv.2, e.2.2)) else e)).map
        Prod.fst := by
    rw [hmapkeys]
    exact hmem
  have hkeys' : p'.header.slot_map.map Prod.fst = List.range p.header.slot_map.length := by
    rw [hsm', alistInsert_map_fst_of_mem _ hmem2, hmapkeys, hkeys]
  have hlen' : p'.header.slot_map.length = p.header.slot_map.length := by
    have h3 := congrArg List.length hkeys'
    simpa using h3
  have hNpos : 0 < p.header.slot_map.length := by
    rcases List.length_pos.mpr (List.ne_nil_of_mem hmem) with h4
    simpa using h4
  refine ⟨?_, ?_, ?_, fun _ => hos'⟩
  · rw [hlen', hkeys']
  · omega
  · intro hh
    rw [hh] at hlen'
    simp only [List.length_nil] at hlen'
    omega

theorem reachable_wf {p : Page} (h : Reachable p) : PageWf p := by
  induction h with
  | new pid => exact wf_new pid
  | add q q' v s _ hstep ih => exact wf_add ih hstep
  | del q q' s _ hstep ih => exact wf_del ih hstep

theorem wf_open_isSome {p : Page} (hw : PageWf p) : p.header.open_slot.isSome := by
  obtain ⟨hkeys, hbound, hempty, hnonempty⟩ := hw
  by_cases hsmE : p.header.slot_map = []
  · rw [hempty hsmE]
    rfl
  · rw [hnonempty hsmE]
    by_cases htomb : tombIds p.header.slot_map = []
    · rw [findNextSlot_no_tomb _ htomb]
      have hNpos : 0 < p.header.slot_map.length := List.length_pos.mpr hsmE
      have hMlt : (p.header.slot_map.map Prod.fst).foldl Nat.max 0
          < p.header.slot_map.length := by
        rcases foldl_max_eq_or_mem (p.header.slot_map.map Prod.fst) 0 with hh | hh
        · omega
        · exact List.mem_range.mp (by rw [← hkeys]; exact hh)
      rw [if_pos (by omega)]
      rfl
    · rw [findNextSlot_tomb _ htomb]
      rfl

theorem add_value_succeeds_iff {p : Page} (hw : PageWf p) (v : List Nat) :
    (∃ pr, p.add_value v = some pr) ↔ (v ≠ [] ∧ v.length + 6 ≤ p.get_free_space) := by
  have hhs : p.get_header_size
      = 6 * p.header.slot_map.length + 4 + cborLenOptU16 p.header.open_slot := by
    unfold Page.get_header_size
    omega
  have hfree_eq : p.get_free_space = PAGE_SIZE - p.get_header_size - p.header.s_space := rfl
  have hcb := cborLen_bounds p.header.open_slot
  constructor
  · rintro ⟨⟨p', s⟩, h⟩
    obtain ⟨hne, hfree, hos, hguard, _⟩ := add_value_inv h
    refine ⟨?_, ?_⟩
    · intro hv
      rw [hv] at hne
      exact absurd hne (by simp)
    · rw [hfree_eq]
      omega
  · rintro ⟨hne, hle⟩
    have he : v.isEmpty = false := by
      cases v with
      | nil => exact absurd rfl hne
      | cons a l => rfl
    have hvpos : 1 ≤ v.length := List.length_pos.mpr hne
    have hfs : PAGE_SIZE = 4096 := rfl
    unfold Page.add_value
    rw [if_neg (by rw [he]; simp; omega)]
    obtain ⟨os, hos⟩ := Option.isSome_iff_exists.mp (wf_open_isSome hw)
    rw [hos]
    dsimp only
    rw [← Option.isSome_iff_exists]
    simp only [Page.append_slot]
    have hnat : p.get_header_size + 6 ≤ PAGE_SIZE - p.header.s_space - v.length := by
      rw [hfree_eq] at hle
      omega
    have h2 : (p.get_header_size : Int) + 6
        ≤ ((PAGE_SIZE - p.header.s_space - v.length : Nat) : Int) := by
      exact_mod_cast hnat
    rw [if_neg (by omega)]
    rfl

theorem foldl_min_tomb_spec {sm : List (Nat × Nat × Nat)}
    (hkeys : sm.map Prod.fst = List.range sm.length) (hbound : sm.length ≤ 681)
    (htomb : tombIds sm ≠ []) :
    (tombIds sm).foldl Nat.min 65535 ∈ tombIds sm
    ∧ ∀ t ∈ tombIds sm, (tombIds sm).foldl Nat.min 65535 ≤ t := by
  constructor
  · rcases foldl_min_eq_or_mem (tombIds sm) 65535 with hh | hh
    · exfalso
      obtain ⟨t, ht⟩ := List.exists_mem_of_ne_nil _ htomb
      have htk := tombIds_subset _ t ht
      rw [hkeys] at htk
      have h4 := List.mem_range.mp htk
      have hle := foldl_min_le_mem (tombIds sm) 65535 t ht
      omega
    · exact hh
  · exact fun t ht => foldl_min_le_mem _ _ t ht

theorem foldl_max_keys_lt {sm : List (Nat × Nat × Nat)}
    (hkeys : sm.map Prod.fst = List.range sm.length) (hN : 0 < sm.length) :
    (sm.map Prod.fst).foldl Nat.max 0 < sm.length := by
  rcases foldl_max_eq_or_mem (sm.map Prod.fst) 0 with hh | hh
  · omega
  · exact List.mem_range.mp (by rw [← hkeys]; exact hh)

theorem collectItems_eq (p : Page) (max_slot : Nat) :
    ∀ k next_slot, k = max_slot + 1 - next_slot →
      collectItems p max_slot next_slot
        = ((List.range' next_slot k).filter (fun s => slotLiveB p s)).map
            (fun s => ((p.get_value s).getD [], s)) := by
  intro k
  induction k with
  | zero =>
      intro next_slot hk
      rw [collectItems]
      rw [if_pos (by omega)]
      simp
  | succ k ih =>
      intro next_slot hk
      rw [collectItems]
      rw [if_neg (by omega)]
      have hrange : List.range' next_slot (k + 1)
          = next_slot :: List.range' (next_slot + 1) k := List.range'_succ _ _ _
      cases hlk : alistLookup p.header.slot_map next_slot with
      | none =>
          have hlive : slotLiveB p next_slot = false := by
            unfold slotLiveB
            rw [hlk]
          rw [hrange, List.filter_cons, hlive]
          simp only [Bool.false_eq_true, if_false]
          exact ih (next_slot + 1) (by omega)
      | some e =>
          dsimp only
          by_cases he : e.2 = 0
          · have hlive : slotLiveB p next_slot = false := by
              unfold slotLiveB
              rw [hlk]
              simp [he]
            rw [if_pos he, hrange, List.filter_cons, hlive]
            simp only [Bool.false_eq_true, if_false]
            exact ih (next_slot + 1) (by omega)
          · have hlive : slotLiveB p next_slot = true := by
              unfold slotLiveB
              rw [hlk]
              simp [he]
            rw [if_neg he, hrange, List.filter_cons, hlive]
            simp only [if_true]
            rw [List.map_cons]
            rw [ih (next_slot + 1) (by omega)]

theorem get_value_isSome_of_live {p : Page} {s : Nat}
    (h : slotLiveB p s = true) : (p.get_value s).isSome := by
  unfold slotLiveB at h
  cases hlk : alistLookup p.header.slot_map s with
  | none =>
      rw [hlk] at h
      exact absurd h (by simp)
  | some e =>
      rw [hlk] at h
      have he : ¬e.2 = 0 := by simpa using h
      have hne : p.header.slot_map.isEmpty = false := by
        cases hsm : p.header.slot_map with
        | nil => rw [hsm] at hlk; exact absurd hlk (by simp [alistLookup])
        | cons a l => rfl
      unfold Page.get_value
      rw [hne, hlk]
      simp only [Bool.false_eq_true, if_false]
      rw [if_neg he]
      rfl

theorem merge_preserves_groupby (a : Aggregator) (t : Tuple) :
    (mergeTupleIntoGroup a t).groupby_fields = a.groupby_fields := by
  unfold mergeTupleIntoGroup
  dsimp only
  split <;> rfl

theorem merge_group_keys (a : Aggregator) (t : Tuple) :
    (mergeTupleIntoGroup a t).group_aggs.map Prod.fst
      = (if (a.groupby_fields.map fun i => getFieldD t i) ∈ a.group_aggs.map Prod.fst
         then a.group_aggs.map Prod.fst
         else a.group_aggs.map Prod.fst ++ [a.groupby_fields.map fun i => getFieldD t i]) := by
  unfold mergeTupleIntoGroup
  dsimp only
  cases hlk : alistLookup a.group_aggs (a.groupby_fields.map fun i => getFieldD t i) with
  | some v =>
      have hmem : (a.groupby_fields.map fun i => getFieldD t i) ∈ a.group_aggs.map Prod.fst := by
        rw [← alistLookup_isSome_iff, hlk]
        rfl
      rw [if_pos hmem]
      dsimp only
      exact alistInsert_map_fst_of_mem _ hmem
  | none =>
      have hmem : (a.groupby_fields.map fun i => getFieldD t i) ∉ a.group_aggs.map Prod.fst := by
        rw [← alistLookup_eq_none_iff]
        exact hlk
      rw [if_neg hmem]
      dsimp only
      exact alistInsert_map_fst_of_not_mem _ hmem

theorem aggFold_keys_general (gb : List Nat) :
    ∀ (ts : List Tuple) (a : Aggregator), a.groupby_fields = gb →
      (ts.foldl mergeTupleIntoGroup a).group_aggs.map Prod.fst
        = ts.foldl
            (fun acc t =>
              if (gb.map fun i => getFieldD t i) ∈ acc then acc
              else acc ++ [gb.map fun i => getFieldD t i])
            (a.group_aggs.map Prod.fst) := by
  intro ts
  induction ts with
  | nil => intro a ha; rfl
  | cons t rest ih =>
      intro a ha
      rw [List.foldl_cons, List.foldl_cons]
      rw [ih (mergeTupleIntoGroup a t) (by rw [merge_preserves_groupby, ha])]
      rw [merge_group_keys, ha]


/-- C1: with right tuples `(1,8)` and `(1,9)` sharing join key 1 and the
left tuple `(1,7)`, the source's hash equi-join emits only the left tuple
joined with the FIRST build entry, while the design contract (one output
per matched right tuple, in build order) requires both joins.  The code
diverges from the claim at this input. -/
theorem claim_C1_hash_join_first_match_only :
    hashEqJoinOutputs 0 0 c1lefts c1rights
      = [[Field.int 1, Field.int 7, Field.int 1, Field.int 8]]
    ∧ specHashEqJoinOutputs 0 0 c1lefts c1rights
      = [[Field.int 1, Field.int 7, Field.int 1, Field.int 8],
         [Field.int 1, Field.int 7, Field.int 1, Field.int 9]]
    ∧ hashEqJoinOutputs 0 0 c1lefts c1rights
      ≠ specHashEqJoinOutputs 0 0 c1lefts c1rights := by
  refine ⟨by decide, by decide, by decide⟩

/-- Inserting any 4085-byte value into a fresh page succeeds at slot 0
and writes the payload at bytes `[11, 4096)`; stated for all values of
that length so that the payload's length never has to be evaluated
element by element. -/
theorem add4085_general : ∀ v : List Nat, v.length = 4085 → v.isEmpty = false →
    (Page.new 0).add_value v = some (⟨c2hdr, List.replicate 11 0 ++ v⟩, 0) := by
  intro v hl he
  have hfree : (Page.new 0).get_free_space = 4091 := rfl
  have hhs : (Page.new 0).get_header_size = 5 := rfl
  simp only [Page.add_value, hfree, hl, he, Page.append_slot, hhs]
  norm_num
  simp only [Page.new, writeBytes, hl, List.take_replicate, List.drop_replicate]
  norm_num [PAGE_SIZE]
  rfl

/-- The concrete page holding 4085 bytes of 7s, in closed form. -/
theorem c2page_eq : c2page = ⟨c2hdr, List.replicate 11 0 ++ List.replicate 4085 7⟩ := by
  unfold c2page pageAfterAdd
  rw [add4085_general (List.replicate 4085 7) (by rw [List.length_replicate]) rfl]

/-- C2: the page holding one 4085-byte value is reachable (a single
successful `add_value` on a fresh page), yet serializing and
deserializing it changes the value `get_value 0` observes: `to_bytes`
writes the 6-byte directory entry over the payload's first two bytes,
because `add_value`'s free-space check reserved only the 5-byte in-memory
header of an empty page, not the 13 serialized header-plus-directory
bytes. -/
theorem claim_C2_roundtrip_corrupts_payload :
    (Page.new 0).add_value (List.replicate 4085 7) = some (c2page, 0)
    ∧ (Page.from_bytes (bytesOf c2page)).get_value 0 ≠ c2page.get_value 0 := by
  constructor
  · rw [add4085_general (List.replicate 4085 7) (by rw [List.length_replicate]) rfl,
      c2page_eq]
  · rw [c2page_eq]
    decide

/-- C4 counterexample: a fresh page reports header size 5, not the
claimed exact `8 + 6 * 0 = 8`. -/
theorem claim_C4_counterexample :
    (Page.new 0).get_header_size ≠ 8 + 6 * (Page.new 0).header.slot_map.length := by
  decide

/-- C4 amended: the reported header size is `6 * N + 4 + c` where `c` is
the CBOR length of `open_slot` (between 1 and 3), hence between
`6 * N + 5` and `6 * N + 7`, within the claimed `8 + 6 * N` bound but
never equal to it. -/
theorem claim_C4_header_size_formula (p : Page) :
    p.get_header_size
      = 6 * p.header.slot_map.length + 4 + cborLenOptU16 p.header.open_slot
    ∧ 6 * p.header.slot_map.length + 5 ≤ p.get_header_size
    ∧ p.get_header_size ≤ 6 * p.header.slot_map.length + 7 := by
  refine ⟨by simp [Page.get_header_size]; ring, ?_, ?_⟩ <;>
    · have h : 1 ≤ cborLenOptU16 p.header.open_slot
          ∧ cborLenOptU16 p.header.open_slot ≤ 3 := by
        cases hos : p.header.open_slot with
        | none => simp [cborLenOptU16]
        | some x =>
            simp only [cborLenOptU16]
            split <;> [omega; (split <;> omega)]
      simp only [Page.get_header_size]
      omega

/-- C5: deserializing an all-zero buffer yields a page whose open-slot
flag is 0, hence `open_slot = None`; serializing that page panics on
`open_slot.unwrap()` instead of returning a `PAGE_SIZE`-byte vector, so
`to_bytes` is not total. -/
theorem claim_C5_to_bytes_panics_on_absent_open_slot :
    (Page.from_bytes (List.replicate PAGE_SIZE 0)).header.open_slot = none
    ∧ (Page.from_bytes (List.replicate PAGE_SIZE 0)).to_bytes = Ret.crash := by
  refine ⟨by decide, by decide⟩

/-- C7: deleting the value `(container 0, page 0, slot 0)` once succeeds,
but deleting it a second time panics inside `Page::delete_value` (the
slice `data[header_size..1]` of the tombstoned entry), and deleting any
id whose container does not exist panics on `get_page(...).unwrap()`;
`delete_value` is neither total nor idempotent. -/
theorem claim_C7_delete_value_panics :
    smInsertValue c7sm0 0 [9, 9, 9] = Ret.ok (c7sm1, c7id)
    ∧ smDeleteValue c7sm1 c7id = Ret.ok c7sm2
    ∧ smDeleteValue c7sm2 c7id = Ret.crash
    ∧ smDeleteValue ([] : SM) c7id = Ret.crash := by
  exact ⟨rfl, rfl, rfl, rfl⟩

/-- C8 counterexample: with the hash map enumerated in reverse (one of
the unspecified iteration orders of `std::collections::HashMap`, which
guarantees none), the cached aggregate rows for the stream with group
keys 1 then 2 are not in first-appearance order. -/
theorem claim_C8_counterexample :
    (Aggregate.new List.reverse [0] [0] [AggOp.count] c8child).tuples
      = [[Field.int 2, Field.int 1], [Field.int 1, Field.int 1]]
    ∧ ((aggFold [0] [0] [AggOp.count] c8child).group_aggs.map (fun e => e.1 ++ e.2))
      = [[Field.int 1, Field.int 1], [Field.int 2, Field.int 1]]
    ∧ (Aggregate.new List.reverse [0] [0] [AggOp.count] c8child).tuples
      ≠ ((aggFold [0] [0] [AggOp.count] c8child).group_aggs.map (fun e => e.1 ++ e.2)) := by
  refine ⟨by decide, by decide, by decide⟩


/-- C3 counterexample: on the reachable page holding only the tombstone
entry for slot 0 (insert three bytes into a fresh page, then delete slot
0), the next insert reuses slot 0 and adds no directory entry, and the
free space is 4085 bytes; yet a 4085-byte insert is rejected, because
`append_slot` reserves 6 extra header bytes unconditionally.  The claim's
success condition, value nonempty and length at most the free space, is
therefore false here. -/
theorem claim_C3_counterexample :
    (Page.new 0).add_value [7, 7, 7] = some (c3pageA, 0)
    ∧ c3pageA.delete_value 0 = Ret.ok (some c3page)
    ∧ alistLookup c3page.header.slot_map 0 = some (0, 0)
    ∧ c3page.header.open_slot = some 0
    ∧ c3page.get_free_space = 4085
    ∧ c3page.add_value (List.replicate 4085 1) = none := by
  have hreach : Reachable c3page :=
    Reachable.del c3pageA c3page 0
      (Reachable.add (Page.new 0) c3pageA [7, 7, 7] 0 (Reachable.new 0) rfl) rfl
  have hiff := add_value_succeeds_iff (reachable_wf hreach) (List.replicate 4085 1)
  have hnone : c3page.add_value (List.replicate 4085 1) = none := by
    cases hcase : c3page.add_value (List.replicate 4085 1) with
    | none => rfl
    | some pr =>
        have h2 := (hiff.mp (Exists.intro pr hcase)).2
        rw [List.length_replicate] at h2
        have hf : c3page.get_free_space = 4085 := rfl
        rw [hf] at h2
        omega
  exact ⟨rfl, rfl, rfl, rfl, rfl, hnone⟩

/-- C3 amended: on every reachable page, `add_value` succeeds if and only
if the value is nonempty and its length plus 6 fits in the current free
space — the 6 extra directory bytes are reserved unconditionally, also
when the insert reuses a tombstoned slot's existing entry. -/
theorem claim_C3_amended (p : Page) (v : List Nat) (hr : Reachable p) :
    (∃ pr, p.add_value v = some pr) ↔ (v ≠ [] ∧ v.length + 6 ≤ p.get_free_space) :=
  add_value_succeeds_iff (reachable_wf hr) v

/-- C3 witness: the amended success condition instantiated on a fresh page
and a three-byte value. -/
theorem claim_C3_witness :
    (∃ pr, (Page.new 0).add_value [1, 2, 3] = some pr)
      ↔ ([1, 2, 3] ≠ ([] : List Nat)
          ∧ [1, 2, 3].length + 6 ≤ (Page.new 0).get_free_space) :=
  claim_C3_amended (Page.new 0) [1, 2, 3] (Reachable.new 0)

/-- C6: on every reachable page, a successful `add_value` returns the
minimum tombstoned slot id when a tombstone exists, slot 0 on a page with
an empty directory, and otherwise one greater than the maximum live slot
id. -/
theorem claim_C6_slot_id_assignment (p p' : Page) (v : List Nat) (s : Nat)
    (hr : Reachable p) (h : p.add_value v = some (p', s)) :
    (p.header.slot_map = [] → s = 0)
    ∧ (tombIds p.header.slot_map ≠ [] →
        s ∈ tombIds p.header.slot_map ∧ ∀ t ∈ tombIds p.header.slot_map, s ≤ t)
    ∧ (p.header.slot_map ≠ [] → tombIds p.header.slot_map = [] →
        ∃ m, m ∈ liveIds p.header.slot_map ∧ (∀ t ∈ liveIds p.header.slot_map, t ≤ m)
          ∧ s = m + 1) := by
  obtain ⟨hkeys, hbound, hempty, hnonempty⟩ := reachable_wf hr
  obtain ⟨_, _, hos, _⟩ := add_value_inv h
  refine ⟨?_, ?_, ?_⟩
  · intro hsmE
    rw [hempty hsmE] at hos
    exact (Option.some.inj hos).symm
  · intro htomb
    have hsmE : p.header.slot_map ≠ [] := by
      intro hh
      rw [hh] at htomb
      exact htomb rfl
    have hfns : findNextSlot p.header.slot_map = some s := by
      rw [← hnonempty hsmE]
      exact hos
    rw [findNextSlot_tomb _ htomb] at hfns
    have hsmin : s = (tombIds p.header.slot_map).foldl Nat.min 65535 :=
      (Option.some.inj hfns).symm
    obtain ⟨hm1, hm2⟩ := foldl_min_tomb_spec hkeys hbound htomb
    rw [hsmin]
    exact ⟨hm1, hm2⟩
  · intro hsmE htomb
    have hfns : findNextSlot p.header.slot_map = some s := by
      rw [← hnonempty hsmE]
      exact hos
    rw [findNextSlot_no_tomb _ htomb] at hfns
    have hNpos : 0 < p.header.slot_map.length := List.length_pos.mpr hsmE
    have hMlt := foldl_max_keys_lt hkeys hNpos
    rw [if_pos (by omega)] at hfns
    have hsM : s = (p.header.slot_map.map Prod.fst).foldl Nat.max 0 + 1 :=
      (Option.some.inj hfns).symm
    refine ⟨(p.header.slot_map.map Prod.fst).foldl Nat.max 0, ?_, ?_, hsM⟩
    · rw [liveIds_eq_keys _ htomb]
      rcases foldl_max_eq_or_mem (p.header.slot_map.map Prod.fst) 0 with hh | hh
      · rw [hh, hkeys]
        exact List.mem_range.mpr hNpos
      · exact hh
    · rw [liveIds_eq_keys _ htomb]
      exact fun t ht => mem_le_foldl_max _ _ t ht


/-- C6 witness: the slot-assignment rule instantiated on the very first
insert into a fresh page, which lands in slot 0. -/
theorem claim_C6_witness :
    ((Page.new 0).header.slot_map = [] → 0 = 0)
    ∧ (tombIds (Page.new 0).header.slot_map ≠ [] →
        0 ∈ tombIds (Page.new 0).header.slot_map
          ∧ ∀ t ∈ tombIds (Page.new 0).header.slot_map, 0 ≤ t)
    ∧ ((Page.new 0).header.slot_map ≠ [] → tombIds (Page.new 0).header.slot_map = [] →
        ∃ m, m ∈ liveIds (Page.new 0).header.slot_map
          ∧ (∀ t ∈ liveIds (Page.new 0).header.slot_map, t ≤ m) ∧ 0 = m + 1) :=
  claim_C6_slot_id_assignment (Page.new 0) c6page [1] 0 (Reachable.new 0) rfl

/-- C9: on every reachable page the directory's key set is exactly the
contiguous range of its entry count, and the consuming iterator yields
exactly the live slots in ascending slot-id order with their payloads,
skipping every tombstone. -/
theorem claim_C9_directory_range_and_iteration (p : Page) (hr : Reachable p) :
    (∀ k, (alistLookup p.header.slot_map k).isSome ↔ k < p.header.slot_map.length)
    ∧ p.iterItems
        = ((List.range p.header.slot_map.length).filter (fun s => slotLiveB p s)).map
            (fun s => ((p.get_value s).getD [], s))
    ∧ ∀ it ∈ p.iterItems, p.get_value it.2 = some it.1 := by
  obtain ⟨hkeys, hbound, hempty, hnonempty⟩ := reachable_wf hr
  have hlook : ∀ k, (alistLookup p.header.slot_map k).isSome
      ↔ k < p.header.slot_map.length := by
    intro k
    rw [alistLookup_isSome_iff, hkeys, List.mem_range]
  have hchar : p.iterItems
      = ((List.range p.header.slot_map.length).filter (fun s => slotLiveB p s)).map
          (fun s => ((p.get_value s).getD [], s)) := by
    unfold Page.iterItems
    rw [collectItems_eq p p.header.slot_map.length (p.header.slot_map.length + 1) 0 (by omega)]
    rw [← List.range_eq_range', List.range_succ, List.filter_append]
    have hdead : slotLiveB p p.header.slot_map.length = false := by
      unfold slotLiveB
      have hnone : alistLookup p.header.slot_map p.header.slot_map.length = none := by
        rw [← Option.not_isSome_iff_eq_none, hlook]
        omega
      rw [hnone]
    rw [List.filter_cons, hdead]
    simp
  refine ⟨hlook, hchar, ?_⟩
  intro it hit
  rw [hchar] at hit
  obtain ⟨sl, hsl, hit_eq⟩ := List.mem_map.mp hit
  have hlive : slotLiveB p sl = true := List.of_mem_filter hsl
  have hsome := get_value_isSome_of_live hlive
  rw [← hit_eq]
  cases hgv : p.get_value sl with
  | none => exact absurd hsome (by simp [hgv])
  | some val => rfl


/-- C9 witness: the directory-range and iteration law instantiated on the
reachable page holding a single tombstone (its iteration is empty). -/
theorem claim_C9_witness :
    (∀ k, (alistLookup c3page.header.slot_map k).isSome
        ↔ k < c3page.header.slot_map.length)
    ∧ c3page.iterItems
        = ((List.range c3page.header.slot_map.length).filter
            (fun s => slotLiveB c3page s)).map
            (fun s => ((c3page.get_value s).getD [], s))
    ∧ ∀ it ∈ c3page.iterItems, c3page.get_value it.2 = some it.1 :=
  claim_C9_directory_range_and_iteration c3page
    (Reachable.del c3pageA c3page 0
      (Reachable.add (Page.new 0) c3pageA [7, 7, 7] 0 (Reachable.new 0) rfl) rfl)

/-- C8 amended: `Aggregate` materializes at construction — the cached rows
are computed from the whole child stream, one row (group key fields
followed by accumulated fields) per distinct group key, in the hash map's
unspecified iteration order (`ord`, an arbitrary permutation) rather than
first-appearance order; the group map itself records keys in
first-appearance order; `next` yields the cached rows by index and
`rewind` resets the index to 0. -/
theorem claim_C8_amended
    (ord : List (List Field × Tuple) → List (List Field × Tuple))
    (hord : ∀ l, (ord l).Perm l)
    (gb ai : List Nat) (ops : List AggOp) (child : List Tuple) :
    (Aggregate.new ord gb ai ops child).tuples.Perm
        ((aggFold gb ai ops child).group_aggs.map (fun e => e.1 ++ e.2))
    ∧ (aggFold gb ai ops child).group_aggs.map Prod.fst = firstAppearanceKeys gb child
    ∧ (Aggregate.new ord gb ai ops child).tuple_idx = 0
    ∧ (Aggregate.new ord gb ai ops child).is_open = false
    ∧ (∀ st : AggregateOp, st.is_open = true →
        (∀ h : st.tuple_idx < st.tuples.length,
            aggNext st = .ok (some (st.tuples.get ⟨st.tuple_idx, h⟩),
              { st with tuple_idx := st.tuple_idx + 1 }))
        ∧ (st.tuples.length ≤ st.tuple_idx → aggNext st = .ok (none, st))
        ∧ aggRewind st = .ok { st with tuple_idx := 0 }) := by
  refine ⟨?_, ?_, rfl, rfl, ?_⟩
  · exact (hord _).map _
  · exact aggFold_keys_general gb child _ rfl
  · intro st hopen
    refine ⟨?_, ?_, ?_⟩
    · intro h
      unfold aggNext
      rw [hopen]
      simp only [not_true, Bool.true_eq_false, if_false]
      rw [if_pos h]
      rw [List.get?_eq_get h]
    · intro h
      unfold aggNext
      rw [hopen]
      simp only [not_true, Bool.true_eq_false, if_false]
      rw [if_neg (Nat.not_lt.mpr h)]
    · unfold aggRewind
      rw [hopen]
      simp only [not_true, Bool.true_eq_false, if_false]


/-- C8 witness: the amended aggregate contract instantiated with the
identity iteration order on the two-group stream. -/
theorem claim_C8_witness :
    (Aggregate.new id [0] [0] [AggOp.count] c8child).tuples.Perm
        ((aggFold [0] [0] [AggOp.count] c8child).group_aggs.map (fun e => e.1 ++ e.2))
    ∧ (aggFold [0] [0] [AggOp.count] c8child).group_aggs.map Prod.fst
        = firstAppearanceKeys [0] c8child
    ∧ (Aggregate.new id [0] [0] [AggOp.count] c8child).tuple_idx = 0
    ∧ (Aggregate.new id [0] [0] [AggOp.count] c8child).is_open = false
    ∧ (∀ st : AggregateOp, st.is_open = true →
        (∀ h : st.tuple_idx < st.tuples.length,
            aggNext st = .ok (some (st.tuples.get ⟨st.tuple_idx, h⟩),
              { st with tuple_idx := st.tuple_idx + 1 }))
        ∧ (st.tuples.length ≤ st.tuple_idx → aggNext st = .ok (none, st))
        ∧ aggRewind st = .ok { st with tuple_idx := 0 }) :=
  claim_C8_amended id (fun l => List.Perm.refl l) [0] [0] [AggOp.count] c8child

/-- C10: when the target container exists with zero pages, `insert_value`
creates page 0, ignores whether the page-level `add_value` succeeded,
writes the page, and returns the value id (container, page 0, slot 0);
for any value a fresh page rejects (such as the empty value) nothing is
stored, and `get_value` on the returned id then fails. -/
theorem claim_C10_insert_value_zero_pages (sm : SM) (cid : Nat) (v : List Nat)
    (hc : alistLookup sm cid = some [])
    (hfail : (Page.new 0).add_value v = none)
    (hlen : v.length ≤ PAGE_SIZE) :
    smInsertValue sm cid v
      = .ok (alistInsert sm cid [fp0bytes], ⟨cid, some 0, some 0⟩)
    ∧ smGetValue (alistInsert sm cid [fp0bytes]) ⟨cid, some 0, some 0⟩ = .ok none := by
  constructor
  · unfold smInsertValue
    rw [if_neg (by omega)]
    rw [hc]
    dsimp only
    rw [if_pos (show ([] : List (List Nat)).length = 0 from rfl)]
    rw [hfail]
    have hw : smWritePage sm cid (Page.new 0) = .ok (some (alistInsert sm cid [fp0bytes])) := by
      unfold smWritePage
      rw [hc]
      rfl
    show (match smWritePage sm cid (Page.new 0) with
      | Ret.crash => Ret.crash
      | Ret.ok none => Ret.crash
      | Ret.ok (some sm') =>
          Ret.ok (sm', ({ container_id := cid, page_id := some 0, slot_id := some 0 } : ValueId)))
      = Ret.ok (alistInsert sm cid [fp0bytes],
          ({ container_id := cid, page_id := some 0, slot_id := some 0 } : ValueId))
    rw [hw]
  · unfold smGetValue smGetPage
    dsimp only
    rw [alistLookup_alistInsert_self]
    rfl


/-- C10 witness: inserting the empty value into a zero-page container
returns id (5, 0, 0) while the subsequent lookup errs. -/
theorem claim_C10_witness :
    smInsertValue [(5, [])] 5 []
      = Ret.ok (alistInsert [(5, [])] 5 [fp0bytes],
          ({ container_id := 5, page_id := some 0, slot_id := some 0 } : ValueId))
    ∧ smGetValue (alistInsert [(5, [])] 5 [fp0bytes])
        ({ container_id := 5, page_id := some 0, slot_id := some 0 } : ValueId)
      = Ret.ok none :=
  claim_C10_insert_value_zero_pages [(5, [])] 5 [] rfl rfl (by decide)

end Crusty
